import Mathlib

/-!
Shallow embedding of the photo pairing engine of `telegram-report`
(`app/web.py`, with the sibling CLI matcher in `app/report_menu_table.py`).

Image-derived data (perceptual hashes, ORB descriptors, OpenCV matcher
output) is opaque to the matching logic, so it enters the model as
parameters: `bph i` is the phash of before-image `i`, `afph` the list of
phashes of the after-images, and `sc i j` the similarity score computed by
`score_pair` for before-image `i` against after-image `j`.  The matching
loop of `build_report` (web.py lines 117-141) is embedded faithfully:
candidate generation over unused after-indices, stable sort by hamming
distance, top-`max 1 TOPK` truncation, strict-improvement best fold,
threshold acceptance, and positional fallback.
-/

deriving instance DecidableEq for Except

namespace TGReport

/-- Fuel-driven popcount helper (structural recursion so the kernel can
evaluate it on literals). -/
def popcountAux : Nat → Nat → Nat
  | 0, _ => 0
  | _ + 1, 0 => 0
  | fuel + 1, n + 1 => (n + 1) % 2 + popcountAux fuel ((n + 1) / 2)

/-- Number of one bits of a natural number, the embedding of
Python `bin(x).count("1")`. -/
def popcount (n : Nat) : Nat := popcountAux n n

/-- `hamming` from web.py line 68: `bin(a ^ b).count("1")`. -/
def hamming (a b : Nat) : Nat := popcount (a ^^^ b)

/-- Default of the `FAST_RATIO` environment knob, 0.75 (web.py line 41). -/
def ratioDefault : ℚ := 3 / 4

/-- Count of good knn matches (web.py lines 78-83): an entry is good when
it has at least two neighbours and the best distance is below
`ratioDefault` times the second best. Each inner list holds the distances
returned by `bf.knnMatch` for one query descriptor. -/
def goodCount (knn : List (List ℚ)) : Nat :=
  List.countP
    (fun mn =>
      match mn with
      | d1 :: d2 :: _ => decide (d1 < ratioDefault * d2)
      | _ => false)
    knn

/-- `score_pair` from web.py lines 71-84.  Descriptor sets are opaque, so
only their presence and length matter: `desA`/`desB` are `none` when
`detectAndCompute` failed and otherwise carry the descriptor count.  The
`knn` list is the output of the external brute-force matcher and `err`
records whether `knnMatch` raised `cv2.error`. -/
def score_pair (desA desB : Option Nat) (knn : List (List ℚ)) (err : Bool) : ℚ :=
  match desA, desB with
  | none, _ => 0
  | some _, none => 0
  | some na, some nb =>
    if na = 0 ∨ nb = 0 then 0
    else if err then 0
    else min 1 ((goodCount knn : ℚ) / 200)

/-- Comparison key used by `dlist.sort(key=lambda x: x[1])` in web.py
line 122: order candidate pairs by their hamming distance (second
component) only. -/
def distLE (a b : Nat × Nat) : Prop := a.2 ≤ b.2

instance : DecidableRel distLE := fun a b => inferInstanceAs (Decidable (a.2 ≤ b.2))

/-- Strict lexicographic order on (after-index, distance) pairs: smaller
distance first, ties broken by smaller after-index.  This is the order the
stable sort in web.py line 122 effectively produces, because the
comprehension in line 121 enumerates after-indices in ascending order. -/
def lexLt (a b : Nat × Nat) : Prop := a.2 < b.2 ∨ (a.2 = b.2 ∧ a.1 < b.1)

/-- The distance list of web.py line 121: pairs `(j, hamming(be_ph[idx], aph))`
for every not-yet-used after-index `j`, in ascending index order. -/
def dlist (used : List Nat) (bph : Nat) (afph : List Nat) : List (Nat × Nat) :=
  (afph.enum.filter (fun p => decide (p.1 ∉ used))).map
    (fun p => (p.1, hamming bph p.2))

/-- The sorted, truncated candidate pairs of web.py lines 122-123:
stable sort by distance, then keep the first `max 1 TOPK` entries. -/
def candPairs (used : List Nat) (bph : Nat) (afph : List Nat) (K : Nat) :
    List (Nat × Nat) :=
  (List.insertionSort distLE (dlist used bph afph)).take (max 1 K)

/-- The candidate index list `cand` of web.py line 123. -/
def candIdxs (used : List Nat) (bph : Nat) (afph : List Nat) (K : Nat) : List Nat :=
  (candPairs used bph afph K).map Prod.fst

/-- The best-candidate fold of web.py lines 124-129: starting from
`(None, -1.0)`, replace the accumulator whenever a strictly larger score
appears. -/
def bestFold (sc : Nat → ℚ) : List Nat → Option Nat × ℚ → Option Nat × ℚ
  | [], acc => acc
  | j :: js, acc => bestFold sc js (if acc.2 < sc j then (some j, sc j) else acc)

/-- One emitted pairing.  The code stores `(before_path, after_path, score)`
tuples; the boolean records which branch emitted the tuple (confident
match at web.py line 132 versus positional fallback at line 138), which the
code itself distinguishes by the sentinel score and by the
`matched`/`unmatched` counters. -/
structure MatchPair where
  beforeIdx : Nat
  afterIdx : Nat
  score : ℚ
  matched : Bool
deriving DecidableEq

/-- Mutable state of the matching loop in web.py lines 117-140: the `used`
dictionary, the `pairs` list and the progress counters. -/
structure MatchState where
  used : List Nat
  pairs : List MatchPair
  matchedCount : Nat
  unmatchedCount : Nat
  doneCount : Nat
deriving DecidableEq

/-- State at the start of the loop (web.py lines 117-118). -/
def initState : MatchState := ⟨[], [], 0, 0, 0⟩

/-- The positional fallback of web.py lines 134-139: pair before-image `i`
with after-image `i` at sentinel score -1 exactly when index `i` is in
range and unused; otherwise emit nothing.  Line 140 sets `done = idx + 1`
in both cases. -/
def fallbackStep (afph : List Nat) (st : MatchState) (i : Nat) : MatchState :=
  if i < afph.length ∧ i ∉ st.used then
    { used := i :: st.used
      pairs := st.pairs ++ [⟨i, i, -1, false⟩]
      matchedCount := st.matchedCount
      unmatchedCount := st.unmatchedCount + 1
      doneCount := i + 1 }
  else
    { st with doneCount := i + 1 }

/-- One iteration of the matching loop (web.py lines 120-140) for
before-image `i`. -/
def matchStep (afph : List Nat) (bph : Nat → Nat) (sc : Nat → Nat → ℚ)
    (K : Nat) (threshold : ℚ) (st : MatchState) (i : Nat) : MatchState :=
  match bestFold (sc i) (candIdxs st.used (bph i) afph K) (none, -1) with
  | (some j, s) =>
    if threshold ≤ s then
      { used := j :: st.used
        pairs := st.pairs ++ [⟨i, j, s, true⟩]
        matchedCount := st.matchedCount + 1
        unmatchedCount := st.unmatchedCount
        doneCount := i + 1 }
    else fallbackStep afph st i
  | (none, _) => fallbackStep afph st i

/-- The whole matching loop: before-images are processed strictly in
collection order `0, 1, ..., n-1`. -/
def matchLoop (n : Nat) (afph : List Nat) (bph : Nat → Nat)
    (sc : Nat → Nat → ℚ) (K : Nat) (threshold : ℚ) : MatchState :=
  (List.range n).foldl (matchStep afph bph sc K threshold) initState

/-- The per-job progress record, mirroring the dictionary created at
web.py line 255 (`state`, `done`, `total`, `matched`, `unmatched`,
`before`, `after`, `pages`) plus the `error` key that `run_job` adds on
failure (line 234). -/
structure Progress where
  state : String
  total : Nat
  done : Nat
  matched : Nat
  unmatched : Nat
  before : Nat
  after : Nat
  pages : Nat
  error : Option String
deriving DecidableEq

/-- Final value of the `pages` progress key (web.py lines 187-200): it
stays 0 unless more than one page of four pairs is rendered, in which case
it ends at the total page count. -/
def pagesCount (npairs : Nat) : Nat := if npairs ≤ 4 then 0 else (npairs + 3) / 4

/-- `build_report` (web.py lines 86-203) restricted to the pairing engine:
the emptiness check of lines 96-97 (raising
`RuntimeError("No images in before/ or after/")`), the matching loop, and
the final progress record.  `nbefore` is the number of before-images. -/
def build_report (nbefore : Nat) (afph : List Nat) (bph : Nat → Nat)
    (sc : Nat → Nat → ℚ) (K : Nat) (threshold : ℚ) :
    Except String (List MatchPair × Progress) :=
  if nbefore = 0 ∨ afph.length = 0 then
    Except.error "No images in before/ or after/"
  else
    let st := matchLoop nbefore afph bph sc K threshold
    Except.ok
      (st.pairs,
        { state := "done"
          total := nbefore
          done := st.doneCount
          matched := st.matchedCount
          unmatched := st.unmatchedCount
          before := nbefore
          after := afph.length
          pages := pagesCount st.pairs.length
          error := none })

/-- `run_job` (web.py lines 223-234): run `build_report` in the worker and
on any exception set `state="error"` with the captured message.  Before
raising, `build_report` has already set `total`, `before` and `after`
(line 93), while `matched`/`unmatched` still hold their initial zeros. -/
def run_job (nbefore : Nat) (afph : List Nat) (bph : Nat → Nat)
    (sc : Nat → Nat → ℚ) (K : Nat) (threshold : ℚ) : Progress :=
  match build_report nbefore afph bph sc K threshold with
  | Except.ok (_, prog) => prog
  | Except.error e =>
    { state := "error"
      total := nbefore
      done := 0
      matched := 0
      unmatched := 0
      before := nbefore
      after := afph.length
      pages := 0
      error := some e }

/-- Embedding of Python `str.strip()`: drop whitespace from both ends. -/
def pstrip (s : String) : String :=
  ⟨(((s.data.dropWhile Char.isWhitespace).reverse.dropWhile Char.isWhitespace).reverse)⟩

/-- The input validation performed by the `/start` handler (web.py lines
241-258) before the worker thread is spawned: the month and site fields
are stripped and must be non-empty; the threshold is parsed and forwarded
to the worker without any inspection. -/
def start_validate (month site : String) (threshold : ℚ) : Except String ℚ :=
  if pstrip month = "" ∨ pstrip site = "" then
    Except.error "Please choose a month and a site"
  else Except.ok threshold

/-- Count, over the result of a run, of before-images for which no pair
was emitted. -/
def unpairedCount (n : Nat) (pairs : List MatchPair) : Nat :=
  ((List.range n).filter
    (fun i => decide (∀ p ∈ pairs, p.beforeIdx ≠ i))).length

/-- Operations on the per-job event channel (web.py lines 207-221): the
worker pushes a snapshot (`q.put`), and an observer attached to the SSE
stream pops one (`q.get`).  Two observers A and B of the same job read the
same queue. -/
inductive ChanOp where
  | push (e : Nat)
  | getA
  | getB
deriving DecidableEq

/-- State of one job channel plus the histories needed to state delivery
properties: the pending queue contents, what each of the two observers has
received so far, and everything pushed so far. -/
structure ChanState where
  queue : List Nat
  recA : List Nat
  recB : List Nat
  pushed : List Nat
deriving DecidableEq

/-- Semantics of one channel operation.  `EVENTS[job_id]` is a single
`queue.Queue`, so a `get` by either observer removes the head; a `get` on
an empty queue blocks, modelled as a stutter step. -/
def chanStep (st : ChanState) (op : ChanOp) : ChanState :=
  match op with
  | ChanOp.push e => { st with queue := st.queue ++ [e], pushed := st.pushed ++ [e] }
  | ChanOp.getA =>
    match st.queue with
    | [] => st
    | e :: q => { st with queue := q, recA := st.recA ++ [e] }
  | ChanOp.getB =>
    match st.queue with
    | [] => st
    | e :: q => { st with queue := q, recB := st.recB ++ [e] }

/-- Run a schedule of channel operations from the empty channel. -/
def chanRun (ops : List ChanOp) : ChanState :=
  ops.foldl chanStep ⟨[], [], [], []⟩

/-- Example fixture: three after-images, all with phash 0. -/
def exAfph : List Nat := [0, 0, 0]

/-- Example fixture: all before-images have phash 0. -/
def exBph : Nat → Nat := fun _ => 0

/-- Example fixture: before 0 strongly resembles after 2, before 1
resembles after 1, every other combination scores 0. -/
def exScore : Nat → Nat → ℚ := fun i j =>
  if i = 0 ∧ j = 2 then mkRat 9 10 else if i = 1 ∧ j = 1 then mkRat 8 10 else 0

/-- The pair list produced by the engine on the example fixture with
threshold 0.7: before 2 is skipped because its positional counterpart,
after 2, was taken by the confident match of before 0. -/
def exPairs : List MatchPair :=
  [⟨0, 2, mkRat 9 10, true⟩, ⟨1, 1, mkRat 8 10, true⟩]

/-- The final progress record of the example run. -/
def exProg : Progress := ⟨"done", 3, 3, 2, 0, 3, 3, 0, none⟩

theorem le_fst_of_mem_enumFrom {α : Type _} {p : Nat × α} :
    ∀ {n : Nat} {l : List α}, p ∈ l.enumFrom n → n ≤ p.1 := by
  intro n l
  induction l generalizing n with
  | nil => intro h; cases h
  | cons x xs ih =>
    intro h
    rcases List.mem_cons.mp h with h | h
    · subst h; exact Nat.le_refl _
    · exact Nat.le_of_succ_le (ih h)

theorem pairwise_fst_lt_enumFrom {α : Type _} :
    ∀ (n : Nat) (l : List α), (l.enumFrom n).Pairwise (fun a b => a.1 < b.1) := by
  intro n l
  induction l generalizing n with
  | nil => exact List.Pairwise.nil
  | cons x xs ih =>
    refine List.pairwise_cons.mpr ⟨?_, ih (n + 1)⟩
    intro q hq
    exact Nat.lt_of_succ_le (le_fst_of_mem_enumFrom hq)

theorem dlist_pairwise_fst (used : List Nat) (bph : Nat) (afph : List Nat) :
    (dlist used bph afph).Pairwise (fun a b => a.1 < b.1) := by
  unfold dlist
  refine List.pairwise_map.mpr ?_
  exact List.Pairwise.filter _ (pairwise_fst_lt_enumFrom 0 afph)

theorem mem_dlist {used : List Nat} {bph : Nat} {afph : List Nat} {p : Nat × Nat} :
    p ∈ dlist used bph afph ↔
      ∃ h : p.1 < afph.length,
        p.1 ∉ used ∧ p.2 = hamming bph (afph.get ⟨p.1, h⟩) := by
  unfold dlist
  constructor
  · intro hp
    rcases List.mem_map.mp hp with ⟨q, hq, hqp⟩
    rcases List.mem_filter.mp hq with ⟨hqe, hqu⟩
    have hq1 : afph[q.1]? = some q.2 := by
      have : (q.1, q.2) ∈ afph.enum := by simpa using hqe
      exact List.mk_mem_enum_iff_getElem?.mp this
    rcases List.getElem?_eq_some_iff.mp hq1 with ⟨hlt, hget⟩
    subst hqp
    refine ⟨hlt, ?_, ?_⟩
    · intro hmem
      exact (of_decide_eq_true hqu) hmem
    · show hamming bph q.2 = hamming bph (afph.get ⟨q.1, hlt⟩)
      rw [List.get_eq_getElem, hget]
  · rintro ⟨hlt, hu, hd⟩
    refine List.mem_map.mpr ⟨(p.1, afph.get ⟨p.1, hlt⟩), ?_, ?_⟩
    · refine List.mem_filter.mpr ⟨?_, ?_⟩
      · refine List.mk_mem_enum_iff_getElem?.mpr
          (List.getElem?_eq_some_iff.mpr ⟨hlt, ?_⟩)
        rw [List.get_eq_getElem]
      · exact decide_eq_true hu
    · show (p.1, hamming bph (afph.get ⟨p.1, hlt⟩)) = p
      rw [← hd]

theorem candPairs_sublist_sorted (used : List Nat) (bph : Nat) (afph : List Nat) (K : Nat) :
    List.Sublist (candPairs used bph afph K)
      (List.insertionSort distLE (dlist used bph afph)) :=
  List.take_sublist _ _

theorem mem_candPairs_mem_dlist {used : List Nat} {bph : Nat} {afph : List Nat} {K : Nat}
    {p : Nat × Nat} (hp : p ∈ candPairs used bph afph K) : p ∈ dlist used bph afph := by
  have h1 : p ∈ List.insertionSort distLE (dlist used bph afph) :=
    (candPairs_sublist_sorted used bph afph K).subset hp
  exact (List.mem_insertionSort distLE).mp h1

theorem mem_candPairs_unused {used : List Nat} {bph : Nat} {afph : List Nat} {K : Nat}
    {p : Nat × Nat} (hp : p ∈ candPairs used bph afph K) :
    p.1 ∉ used ∧ p.1 < afph.length := by
  rcases mem_dlist.mp (mem_candPairs_mem_dlist hp) with ⟨hlt, hu, _⟩
  exact ⟨hu, hlt⟩

theorem orderedInsert_lex (x : Nat × Nat) :
    ∀ (l : List (Nat × Nat)), l.Pairwise lexLt → (∀ y ∈ l, x.1 < y.1) →
      (List.orderedInsert distLE x l).Pairwise lexLt := by
  intro l
  induction l with
  | nil => intro _ _; simp [List.orderedInsert, lexLt]
  | cons y ys ih =>
    intro hl hx
    by_cases hxy : distLE x y
    · rw [List.orderedInsert, if_pos hxy]
      refine List.pairwise_cons.mpr ⟨?_, hl⟩
      intro z hz
      rcases List.mem_cons.mp hz with hz | hz
      · subst hz
        rcases Nat.lt_or_ge x.2 z.2 with h | h
        · exact Or.inl h
        · exact Or.inr ⟨Nat.le_antisymm hxy h, hx z (List.mem_cons_self _ _)⟩
      · have hyz := (List.pairwise_cons.mp hl).1 z hz
        have hy2z2 : y.2 ≤ z.2 := by
          rcases hyz with h | h
          · exact Nat.le_of_lt h
          · exact Nat.le_of_eq h.1
        rcases Nat.lt_or_ge x.2 z.2 with h | h
        · exact Or.inl h
        · exact Or.inr ⟨Nat.le_antisymm (Nat.le_trans hxy hy2z2) h,
            hx z (List.mem_cons_of_mem _ hz)⟩
    · rw [List.orderedInsert, if_neg hxy]
      have hyx : y.2 < x.2 := Nat.lt_of_not_le hxy
      refine List.pairwise_cons.mpr ⟨?_, ?_⟩
      · intro z hz
        rcases (List.mem_orderedInsert distLE).mp hz with hz | hz
        · subst hz; exact Or.inl hyx
        · exact (List.pairwise_cons.mp hl).1 z hz
      · exact ih (List.pairwise_cons.mp hl).2
          (fun z hz => hx z (List.mem_cons_of_mem _ hz))

theorem insertionSort_lex :
    ∀ (l : List (Nat × Nat)), l.Pairwise (fun a b => a.1 < b.1) →
      (List.insertionSort distLE l).Pairwise lexLt := by
  intro l
  induction l with
  | nil => intro _; exact List.Pairwise.nil
  | cons x xs ih =>
    intro hl
    rw [List.insertionSort]
    refine orderedInsert_lex x _ (ih (List.pairwise_cons.mp hl).2) ?_
    intro y hy
    exact (List.pairwise_cons.mp hl).1 y ((List.mem_insertionSort distLE).mp hy)

theorem candPairs_pairwise_lex (used : List Nat) (bph : Nat) (afph : List Nat) (K : Nat) :
    (candPairs used bph afph K).Pairwise lexLt :=
  List.Pairwise.sublist (candPairs_sublist_sorted used bph afph K)
    (insertionSort_lex _ (dlist_pairwise_fst used bph afph))

theorem bestFold_spec_map (sc : Nat → ℚ) :
    ∀ (P : List (Nat × Nat)) (acc : Option Nat × ℚ),
      (bestFold sc (P.map Prod.fst) acc = acc ∧ ∀ p ∈ P, sc p.1 ≤ acc.2) ∨
      (∃ q P1 P2, P = P1 ++ q :: P2 ∧
        bestFold sc (P.map Prod.fst) acc = (some q.1, sc q.1) ∧
        acc.2 < sc q.1 ∧ (∀ p ∈ P1, sc p.1 < sc q.1) ∧ (∀ p ∈ P2, sc p.1 ≤ sc q.1)) := by
  intro P
  induction P with
  | nil =>
    intro acc
    left
    refine ⟨rfl, ?_⟩
    intro p hp
    cases hp
  | cons q P ih =>
    intro acc
    have hstep : bestFold sc ((q :: P).map Prod.fst) acc =
        bestFold sc (P.map Prod.fst) (if acc.2 < sc q.1 then (some q.1, sc q.1) else acc) := rfl
    by_cases h : acc.2 < sc q.1
    · rcases ih (some q.1, sc q.1) with ⟨he, hall⟩ | ⟨q2, P1, P2, hP, hres, hlt, h1, h2⟩
      · right
        refine ⟨q, [], P, ?_, ?_, ?_, ?_, ?_⟩
        · rfl
        · rw [hstep, if_pos h]; exact he
        · exact h
        · intro p hp; cases hp
        · exact hall
      · right
        refine ⟨q2, q :: P1, P2, ?_, ?_, ?_, ?_, h2⟩
        · rw [hP]; rfl
        · rw [hstep, if_pos h]; exact hres
        · exact lt_trans h hlt
        · intro p hp
          rcases List.mem_cons.mp hp with hp | hp
          · subst hp; exact hlt
          · exact h1 p hp
    · have hle : sc q.1 ≤ acc.2 := le_of_not_lt h
      rcases ih acc with ⟨he, hall⟩ | ⟨q2, P1, P2, hP, hres, hlt, h1, h2⟩
      · left
        constructor
        · rw [hstep, if_neg h]; exact he
        · intro p hp
          rcases List.mem_cons.mp hp with hp | hp
          · subst hp; exact hle
          · exact hall p hp
      · right
        refine ⟨q2, q :: P1, P2, ?_, ?_, hlt, ?_, h2⟩
        · rw [hP]; rfl
        · rw [hstep, if_neg h]; exact hres
        · intro p hp
          rcases List.mem_cons.mp hp with hp | hp
          · subst hp; exact lt_of_le_of_lt hle hlt
          · exact h1 p hp

theorem bestFold_none_all_le {sc : Nat → ℚ} {P : List (Nat × Nat)} {s : ℚ}
    (h : bestFold sc (P.map Prod.fst) (none, -1) = (none, s)) :
    ∀ p ∈ P, sc p.1 ≤ -1 := by
  rcases bestFold_spec_map sc P (none, -1) with ⟨he, hall⟩ | ⟨q, P1, P2, _, hres, _, _, _⟩
  · exact hall
  · rw [hres] at h
    cases h

theorem candPairs_ne_nil {used : List Nat} {bph : Nat} {afph : List Nat} {K : Nat}
    (h : ∃ j, j < afph.length ∧ j ∉ used) : candPairs used bph afph K ≠ [] := by
  rcases h with ⟨j, hj, hju⟩
  have hmem : (j, hamming bph (afph.get ⟨j, hj⟩)) ∈ dlist used bph afph :=
    mem_dlist.mpr ⟨hj, hju, rfl⟩
  have hdne : dlist used bph afph ≠ [] := by
    intro hnil
    rw [hnil] at hmem
    cases hmem
  have hlen : 0 < (dlist used bph afph).length := List.length_pos.mpr hdne
  have hslen : 0 < (List.insertionSort distLE (dlist used bph afph)).length := by
    rw [List.length_insertionSort]; exact hlen
  intro hnil
  have : (candPairs used bph afph K).length = 0 := by rw [hnil]; rfl
  rw [candPairs, List.length_take] at this
  have h1 : 0 < max 1 K := Nat.lt_of_lt_of_le Nat.zero_lt_one (le_max_left 1 K)
  omega

theorem matchStep_some (afph : List Nat) (bph : Nat → Nat) (sc : Nat → Nat → ℚ)
    (K : Nat) (threshold : ℚ) (st : MatchState) (i j : Nat) (s : ℚ)
    (h : bestFold (sc i) (candIdxs st.used (bph i) afph K) (none, -1) = (some j, s)) :
    matchStep afph bph sc K threshold st i =
      if threshold ≤ s then
        { used := j :: st.used
          pairs := st.pairs ++ [⟨i, j, s, true⟩]
          matchedCount := st.matchedCount + 1
          unmatchedCount := st.unmatchedCount
          doneCount := i + 1 }
      else fallbackStep afph st i := by
  unfold matchStep
  rw [h]

theorem matchStep_none (afph : List Nat) (bph : Nat → Nat) (sc : Nat → Nat → ℚ)
    (K : Nat) (threshold : ℚ) (st : MatchState) (i : Nat) (s : ℚ)
    (h : bestFold (sc i) (candIdxs st.used (bph i) afph K) (none, -1) = (none, s)) :
    matchStep afph bph sc K threshold st i = fallbackStep afph st i := by
  unfold matchStep
  rw [h]

theorem fallbackStep_shape (afph : List Nat) (st : MatchState) (i : Nat) :
    fallbackStep afph st i = { st with doneCount := i + 1 } ∨
    (i ∉ st.used ∧ i < afph.length ∧
      fallbackStep afph st i =
        { used := i :: st.used
          pairs := st.pairs ++ [⟨i, i, -1, false⟩]
          matchedCount := st.matchedCount + (if false then 1 else 0)
          unmatchedCount := st.unmatchedCount + (if false then 0 else 1)
          doneCount := i + 1 }) := by
  by_cases hc : i < afph.length ∧ i ∉ st.used
  · right
    refine ⟨hc.2, hc.1, ?_⟩
    unfold fallbackStep
    rw [if_pos hc]
    rfl
  · left
    unfold fallbackStep
    rw [if_neg hc]

theorem matchStep_shape (afph : List Nat) (bph : Nat → Nat) (sc : Nat → Nat → ℚ)
    (K : Nat) (threshold : ℚ) (st : MatchState) (i : Nat) :
    matchStep afph bph sc K threshold st i = { st with doneCount := i + 1 } ∨
    ∃ j s m, j ∉ st.used ∧ j < afph.length ∧
      ((m = true ∧ threshold ≤ s ∧ s = sc i j) ∨ (m = false ∧ s = -1 ∧ j = i)) ∧
      matchStep afph bph sc K threshold st i =
        { used := j :: st.used
          pairs := st.pairs ++ [⟨i, j, s, m⟩]
          matchedCount := st.matchedCount + (if m then 1 else 0)
          unmatchedCount := st.unmatchedCount + (if m then 0 else 1)
          doneCount := i + 1 } := by
  have hcand : candIdxs st.used (bph i) afph K =
      (candPairs st.used (bph i) afph K).map Prod.fst := rfl
  rcases bestFold_spec_map (sc i) (candPairs st.used (bph i) afph K) (none, -1) with
    ⟨he, _⟩ | ⟨q, P1, P2, hP, hres, _, _, _⟩
  · have hm : matchStep afph bph sc K threshold st i = fallbackStep afph st i :=
      matchStep_none afph bph sc K threshold st i (-1) he
    rcases fallbackStep_shape afph st i with hf | ⟨hu, hlen, hf⟩
    · left; rw [hm, hf]
    · right
      exact ⟨i, -1, false, hu, hlen, Or.inr ⟨rfl, rfl, rfl⟩, by rw [hm, hf]⟩
  · have hq : q ∈ candPairs st.used (bph i) afph K := by
      rw [hP]
      exact List.mem_append_right _ (List.mem_cons_self _ _)
    rcases mem_candPairs_unused hq with ⟨hu, hlen⟩
    have hm2 := matchStep_some afph bph sc K threshold st i q.1 (sc i q.1) hres
    by_cases ht : threshold ≤ sc i q.1
    · right
      refine ⟨q.1, sc i q.1, true, hu, hlen, Or.inl ⟨rfl, ht, rfl⟩, ?_⟩
      rw [hm2, if_pos ht]
      rfl
    · have hm : matchStep afph bph sc K threshold st i = fallbackStep afph st i := by
        rw [hm2, if_neg ht]
      rcases fallbackStep_shape afph st i with hf | ⟨hu2, hlen2, hf⟩
      · left; rw [hm, hf]
      · right
        exact ⟨i, -1, false, hu2, hlen2, Or.inr ⟨rfl, rfl, rfl⟩, by rw [hm, hf]⟩

theorem matchLoop_zero (afph : List Nat) (bph : Nat → Nat) (sc : Nat → Nat → ℚ)
    (K : Nat) (threshold : ℚ) : matchLoop 0 afph bph sc K threshold = initState := rfl

theorem matchLoop_succ (n : Nat) (afph : List Nat) (bph : Nat → Nat) (sc : Nat → Nat → ℚ)
    (K : Nat) (threshold : ℚ) :
    matchLoop (n + 1) afph bph sc K threshold =
      matchStep afph bph sc K threshold (matchLoop n afph bph sc K threshold) n := by
  unfold matchLoop
  rw [List.range_succ, List.foldl_append]
  rfl

theorem matchLoop_used_pairs (n : Nat) (afph : List Nat) (bph : Nat → Nat)
    (sc : Nat → Nat → ℚ) (K : Nat) (threshold : ℚ) :
    (∀ p ∈ (matchLoop n afph bph sc K threshold).pairs,
        p.afterIdx ∈ (matchLoop n afph bph sc K threshold).used ∧
        p.afterIdx < afph.length) ∧
    (matchLoop n afph bph sc K threshold).pairs.Pairwise
      (fun p q => p.afterIdx ≠ q.afterIdx) := by
  induction n with
  | zero =>
    constructor
    · intro p hp; cases hp
    · exact List.Pairwise.nil
  | succ n ih =>
    rw [matchLoop_succ]
    rcases ih with ⟨ih1, ih2⟩
    rcases matchStep_shape afph bph sc K threshold (matchLoop n afph bph sc K threshold) n with
      hrec | ⟨j, s, m, hju, hjlen, _, hrec⟩
    · rw [hrec]
      exact ⟨ih1, ih2⟩
    · rw [hrec]
      constructor
      · intro p hp
        rcases List.mem_append.mp hp with hp | hp
        · rcases ih1 p hp with ⟨h1, h2⟩
          exact ⟨List.mem_cons_of_mem _ h1, h2⟩
        · rcases List.mem_singleton.mp hp with rfl
          exact ⟨List.mem_cons_self _ _, hjlen⟩
      · refine List.pairwise_append.mpr ⟨ih2, List.pairwise_singleton _ _, ?_⟩
        intro p hp q hq
        rcases List.mem_singleton.mp hq with rfl
        intro hcontra
        have h1 := (ih1 p hp).1
        rw [hcontra] at h1
        exact hju h1

theorem matchLoop_score_flag (n : Nat) (afph : List Nat) (bph : Nat → Nat)
    (sc : Nat → Nat → ℚ) (K : Nat) (threshold : ℚ) :
    ∀ p ∈ (matchLoop n afph bph sc K threshold).pairs,
      (p.matched = true → threshold ≤ p.score) ∧
      (p.matched = false → p.score = -1) := by
  induction n with
  | zero => intro p hp; cases hp
  | succ n ih =>
    rw [matchLoop_succ]
    rcases matchStep_shape afph bph sc K threshold (matchLoop n afph bph sc K threshold) n with
      hrec | ⟨j, s, m, _, _, hm, hrec⟩
    · rw [hrec]; exact ih
    · rw [hrec]
      intro p hp
      rcases List.mem_append.mp hp with hp | hp
      · exact ih p hp
      · rcases List.mem_singleton.mp hp with rfl
        rcases hm with ⟨hmt, hts, _⟩ | ⟨hmf, hs, _⟩
        · constructor
          · intro _; exact hts
          · intro hc; rw [hmt] at hc; cases hc
        · constructor
          · intro hc; rw [hmf] at hc; cases hc
          · intro _; exact hs

theorem matchLoop_counts (n : Nat) (afph : List Nat) (bph : Nat → Nat)
    (sc : Nat → Nat → ℚ) (K : Nat) (threshold : ℚ) :
    (matchLoop n afph bph sc K threshold).matchedCount +
        (matchLoop n afph bph sc K threshold).unmatchedCount =
      (matchLoop n afph bph sc K threshold).pairs.length ∧
    (∀ p ∈ (matchLoop n afph bph sc K threshold).pairs, p.beforeIdx < n) ∧
    (matchLoop n afph bph sc K threshold).pairs.Pairwise
      (fun p q => p.beforeIdx < q.beforeIdx) ∧
    (matchLoop n afph bph sc K threshold).pairs.length ≤ n ∧
    unpairedCount n (matchLoop n afph bph sc K threshold).pairs =
      n - (matchLoop n afph bph sc K threshold).pairs.length ∧
    (matchLoop n afph bph sc K threshold).doneCount = n := by
  induction n with
  | zero =>
    refine ⟨rfl, ?_, List.Pairwise.nil, Nat.le_refl _, rfl, rfl⟩
    intro p hp; cases hp
  | succ n ih =>
    rcases ih with ⟨ihc, ihb, ihp, ihl, ihu, ihd⟩
    rw [matchLoop_succ]
    rcases matchStep_shape afph bph sc K threshold (matchLoop n afph bph sc K threshold) n with
      hrec | ⟨j, s, m, _, _, _, hrec⟩
    · rw [hrec]
      dsimp only
      refine ⟨ihc, ?_, ihp, Nat.le_succ_of_le ihl, ?_, rfl⟩
      · intro p hp
        exact Nat.lt_succ_of_lt (ihb p hp)
      · unfold unpairedCount
        rw [List.range_succ, List.filter_append, List.length_append]
        have hlast : List.filter
            (fun i => decide (∀ p ∈ (matchLoop n afph bph sc K threshold).pairs,
              p.beforeIdx ≠ i)) [n] = [n] := by
          have : (decide (∀ p ∈ (matchLoop n afph bph sc K threshold).pairs,
              p.beforeIdx ≠ n)) = true :=
            decide_eq_true (fun p hp => Nat.ne_of_lt (ihb p hp))
          simp [List.filter, this]
        rw [hlast]
        have hfirst : (List.filter
            (fun i => decide (∀ p ∈ (matchLoop n afph bph sc K threshold).pairs,
              p.beforeIdx ≠ i)) (List.range n)).length =
            n - (matchLoop n afph bph sc K threshold).pairs.length := ihu
        rw [hfirst]
        simp only [List.length_singleton]
        omega
    · rw [hrec]
      dsimp only
      have hlen : ((matchLoop n afph bph sc K threshold).pairs ++
          [(⟨n, j, s, m⟩ : MatchPair)]).length =
          (matchLoop n afph bph sc K threshold).pairs.length + 1 := by
        rw [List.length_append]; rfl
      refine ⟨?_, ?_, ?_, ?_, ?_, rfl⟩
      · rw [hlen]
        cases m
        · simp only [Bool.false_eq_true, if_false]
          omega
        · simp only [if_true]
          omega
      · intro p hp
        rcases List.mem_append.mp hp with hp | hp
        · exact Nat.lt_succ_of_lt (ihb p hp)
        · rcases List.mem_singleton.mp hp with rfl
          exact Nat.lt_succ_self n
      · refine List.pairwise_append.mpr ⟨ihp, List.pairwise_singleton _ _, ?_⟩
        intro p hp q hq
        rcases List.mem_singleton.mp hq with rfl
        exact ihb p hp
      · rw [hlen]; omega
      · show unpairedCount (n + 1) _ = _
        unfold unpairedCount
        rw [List.range_succ, List.filter_append, List.length_append, hlen]
        have hcongr : List.filter
            (fun i => decide (∀ p ∈ (matchLoop n afph bph sc K threshold).pairs ++
              [(⟨n, j, s, m⟩ : MatchPair)], p.beforeIdx ≠ i)) (List.range n) =
            List.filter
            (fun i => decide (∀ p ∈ (matchLoop n afph bph sc K threshold).pairs,
              p.beforeIdx ≠ i)) (List.range n) := by
          refine List.filter_congr ?_
          intro i hi
          have hin : i < n := List.mem_range.mp hi
          refine decide_eq_decide.mpr ?_
          constructor
          · intro h p hp
            exact h p (List.mem_append_left _ hp)
          · intro h p hp
            rcases List.mem_append.mp hp with hp | hp
            · exact h p hp
            · rcases List.mem_singleton.mp hp with rfl
              show n ≠ i
              omega
        have hlast : List.filter
            (fun i => decide (∀ p ∈ (matchLoop n afph bph sc K threshold).pairs ++
              [(⟨n, j, s, m⟩ : MatchPair)], p.beforeIdx ≠ i)) [n] = [] := by
          have : (decide (∀ p ∈ (matchLoop n afph bph sc K threshold).pairs ++
              [(⟨n, j, s, m⟩ : MatchPair)], p.beforeIdx ≠ n)) = false := by
            refine decide_eq_false ?_
            intro hall
            exact hall ⟨n, j, s, m⟩
              (List.mem_append_right _ (List.mem_singleton.mpr rfl)) rfl
          simp [List.filter, this]
        rw [hcongr, hlast]
        have hfirst : (List.filter
            (fun i => decide (∀ p ∈ (matchLoop n afph bph sc K threshold).pairs,
              p.beforeIdx ≠ i)) (List.range n)).length =
            n - (matchLoop n afph bph sc K threshold).pairs.length := ihu
        rw [hfirst]
        simp only [List.length_nil]
        omega

theorem score_pair_bounds (desA desB : Option Nat) (knn : List (List ℚ)) (err : Bool) :
    0 ≤ score_pair desA desB knn err ∧ score_pair desA desB knn err ≤ 1 := by
  rcases desA with _ | na
  · norm_num [score_pair]
  rcases desB with _ | nb
  · norm_num [score_pair]
  simp only [score_pair]
  split_ifs
  · norm_num
  · norm_num
  · constructor
    · refine le_min (by norm_num) ?_
      positivity
    · exact min_le_left _ _

theorem matchLoop_all_fallback (n : Nat) (afph : List Nat) (bph : Nat → Nat)
    (sc : Nat → Nat → ℚ) (K : Nat) (t : ℚ) (ht : 1 < t) (hsc : ∀ i j, sc i j ≤ 1) :
    ∀ p ∈ (matchLoop n afph bph sc K t).pairs, p.matched = false := by
  induction n with
  | zero => intro p hp; cases hp
  | succ n ih =>
    rw [matchLoop_succ]
    rcases matchStep_shape afph bph sc K t (matchLoop n afph bph sc K t) n with
      hrec | ⟨j, s, m, _, _, hm, hrec⟩
    · rw [hrec]; exact ih
    · rw [hrec]
      intro p hp
      rcases List.mem_append.mp hp with hp | hp
      · exact ih p hp
      · rcases List.mem_singleton.mp hp with rfl
        rcases hm with ⟨_, hts, hsval⟩ | ⟨hmf, _, _⟩
        · exfalso
          have h1 : s ≤ 1 := hsval ▸ hsc n j
          have : t ≤ 1 := le_trans hts h1
          linarith
        · exact hmf

theorem chanStep_perm (st : ChanState) (op : ChanOp)
    (h : List.Perm (st.recA ++ st.recB ++ st.queue) st.pushed) :
    List.Perm ((chanStep st op).recA ++ (chanStep st op).recB ++ (chanStep st op).queue)
      (chanStep st op).pushed := by
  obtain ⟨qu, ra, rb, pu⟩ := st
  cases op with
  | push e =>
    show List.Perm (ra ++ rb ++ (qu ++ [e])) (pu ++ [e])
    have h2 := h.append_right [e]
    have he : ra ++ rb ++ (qu ++ [e]) = ra ++ rb ++ qu ++ [e] :=
      (List.append_assoc _ _ _).symm
    rw [he]
    exact h2
  | getA =>
    cases qu with
    | nil => exact h
    | cons e q =>
      show List.Perm ((ra ++ [e]) ++ rb ++ q) pu
      refine List.Perm.trans ?_ h
      show List.Perm ((ra ++ [e]) ++ rb ++ q) (ra ++ rb ++ (e :: q))
      have h1 : (ra ++ [e]) ++ rb ++ q = ra ++ (e :: (rb ++ q)) := by
        simp [List.append_assoc]
      have h2 : ra ++ rb ++ (e :: q) = ra ++ (rb ++ (e :: q)) :=
        List.append_assoc _ _ _
      rw [h1, h2]
      exact List.Perm.append_left _ List.perm_middle.symm
  | getB =>
    cases qu with
    | nil => exact h
    | cons e q =>
      show List.Perm (ra ++ (rb ++ [e]) ++ q) pu
      refine List.Perm.trans ?_ h
      show List.Perm (ra ++ (rb ++ [e]) ++ q) (ra ++ rb ++ (e :: q))
      have h1 : ra ++ (rb ++ [e]) ++ q = ra ++ (rb ++ (e :: q)) := by
        simp [List.append_assoc]
      have h2 : ra ++ rb ++ (e :: q) = ra ++ (rb ++ (e :: q)) :=
        List.append_assoc _ _ _
      rw [h1, h2]

theorem chanFold_perm (ops : List ChanOp) :
    ∀ st : ChanState, List.Perm (st.recA ++ st.recB ++ st.queue) st.pushed →
      List.Perm ((ops.foldl chanStep st).recA ++ (ops.foldl chanStep st).recB ++
        (ops.foldl chanStep st).queue) (ops.foldl chanStep st).pushed := by
  induction ops with
  | nil => intro st h; exact h
  | cons op ops ih =>
    intro st h
    exact ih (chanStep st op) (chanStep_perm st op h)

theorem chanFold_single (ops : List ChanOp) :
    ∀ st : ChanState, (∀ op ∈ ops, op ≠ ChanOp.getB) →
      st.recA ++ st.queue = st.pushed →
      (ops.foldl chanStep st).recA ++ (ops.foldl chanStep st).queue =
        (ops.foldl chanStep st).pushed := by
  induction ops with
  | nil => intro st _ h; exact h
  | cons op ops ih =>
    intro st hops h
    refine ih (chanStep st op) (fun o ho => hops o (List.mem_cons_of_mem _ ho)) ?_
    obtain ⟨qu, ra, rb, pu⟩ := st
    cases op with
    | push e =>
      show ra ++ (qu ++ [e]) = pu ++ [e]
      rw [← List.append_assoc, h]
    | getA =>
      cases qu with
      | nil => exact h
      | cons e q =>
        have h2 : ra ++ (e :: q) = pu := h
        show (ra ++ [e]) ++ q = pu
        rw [← h2]
        simp [List.append_assoc]
    | getB =>
      exfalso
      exact (hops ChanOp.getB (List.mem_cons_self _ _)) rfl

/-- C1: across one job, the set of after-indices assigned in the resulting
pairing, whether as a confident match or as a positional fallback pair, is
pairwise distinct: no after-image is ever assigned to two different
before-images. -/
theorem c1_after_indices_pairwise_distinct (n : Nat) (afph : List Nat)
    (bph : Nat → Nat) (sc : Nat → Nat → ℚ) (K : Nat) (threshold : ℚ) :
    (matchLoop n afph bph sc K threshold).pairs.Pairwise
      (fun p q => p.afterIdx ≠ q.afterIdx) :=
  (matchLoop_used_pairs n afph bph sc K threshold).2

/-- C2: for a before-image i with no candidate, or whose candidates all
score below the threshold, the step is exactly the positional fallback:
i is paired with after-image i at sentinel score -1 with matched=false and
that index becomes used, precisely when index i is within the range of the
after-collection and not yet used; otherwise the step emits no pair and
only advances the done counter. -/
theorem c2_fallback_rule (afph : List Nat) (bph : Nat → Nat) (sc : Nat → Nat → ℚ)
    (K : Nat) (threshold : ℚ) (st : MatchState) (i : Nat)
    (hfb : candIdxs st.used (bph i) afph K = [] ∨
      ∀ j ∈ candIdxs st.used (bph i) afph K, sc i j < threshold) :
    matchStep afph bph sc K threshold st i =
      (if i < afph.length ∧ i ∉ st.used then
        { used := i :: st.used
          pairs := st.pairs ++ [⟨i, i, -1, false⟩]
          matchedCount := st.matchedCount
          unmatchedCount := st.unmatchedCount + 1
          doneCount := i + 1 }
      else { st with doneCount := i + 1 }) := by
  have hm : matchStep afph bph sc K threshold st i = fallbackStep afph st i := by
    rcases hfb with hnil | hall
    · have he : bestFold (sc i) (candIdxs st.used (bph i) afph K) (none, -1) =
          (none, -1) := by
        rw [hnil]
        rfl
      exact matchStep_none afph bph sc K threshold st i (-1) he
    · rcases bestFold_spec_map (sc i) (candPairs st.used (bph i) afph K) (none, -1) with
        ⟨he, _⟩ | ⟨q, P1, P2, hP, hres, _, _, _⟩
      · exact matchStep_none afph bph sc K threshold st i (-1) he
      · have hq1 : q.1 ∈ candIdxs st.used (bph i) afph K := by
          refine List.mem_map.mpr ⟨q, ?_, rfl⟩
          rw [hP]
          exact List.mem_append_right _ (List.mem_cons_self _ _)
        have ht : sc i q.1 < threshold := hall q.1 hq1
        rw [matchStep_some afph bph sc K threshold st i q.1 (sc i q.1) hres,
          if_neg (not_le.mpr ht)]
  rw [hm]
  unfold fallbackStep
  rfl

/-- Witness for C2 at a concrete input: one after-image, all scores 0,
threshold 1, before-image 0 falls back onto after-image 0. -/
theorem c2_witness :
    (candIdxs initState.used ((fun _ => 0) 0) [0] 5 = [] ∨
      ∀ j ∈ candIdxs initState.used ((fun _ => 0) 0) [0] 5,
        (fun _ _ => (0 : ℚ)) 0 j < 1) ∧
    matchStep [0] (fun _ => 0) (fun _ _ => (0 : ℚ)) 5 1 initState 0 =
      (if 0 < ([0] : List Nat).length ∧ 0 ∉ initState.used then
        { used := 0 :: initState.used
          pairs := initState.pairs ++ [⟨0, 0, -1, false⟩]
          matchedCount := initState.matchedCount
          unmatchedCount := initState.unmatchedCount + 1
          doneCount := 0 + 1 }
      else { initState with doneCount := 0 + 1 }) :=
  ⟨Or.inr (by decide),
    c2_fallback_rule [0] (fun _ => 0) (fun _ _ => (0 : ℚ)) 5 1 initState 0
      (Or.inr (by decide))⟩

/-- C3: for a before-image with a non-empty candidate list and nonnegative
scores, the selection fold picks the candidate with the highest score;
among equal-score candidates it picks the one with the smallest fingerprint
distance, and among those the one with the smallest after-index. -/
theorem c3_best_candidate_selection (used : List Nat) (bph : Nat) (afph : List Nat)
    (K : Nat) (sc : Nat → ℚ)
    (hne : candPairs used bph afph K ≠ [])
    (hnn : ∀ p ∈ candPairs used bph afph K, 0 ≤ sc p.1) :
    ∃ q, q ∈ candPairs used bph afph K ∧
      bestFold sc (candIdxs used bph afph K) (none, -1) = (some q.1, sc q.1) ∧
      (∀ p ∈ candPairs used bph afph K, sc p.1 ≤ sc q.1) ∧
      (∀ p ∈ candPairs used bph afph K, sc p.1 = sc q.1 → p.1 ≠ q.1 →
        q.2 < p.2 ∨ (q.2 = p.2 ∧ q.1 < p.1)) := by
  rcases bestFold_spec_map sc (candPairs used bph afph K) (none, -1) with
    ⟨_, hall⟩ | ⟨q, P1, P2, hP, hres, _, h1, h2⟩
  · exfalso
    rcases List.exists_mem_of_ne_nil _ hne with ⟨p0, hp0⟩
    have ha := hall p0 hp0
    have hb := hnn p0 hp0
    have hc : sc p0.1 ≤ -1 := ha
    linarith
  · have hq : q ∈ candPairs used bph afph K := by
      rw [hP]
      exact List.mem_append_right _ (List.mem_cons_self _ _)
    refine ⟨q, hq, hres, ?_, ?_⟩
    · intro p hp
      rw [hP] at hp
      rcases List.mem_append.mp hp with hp | hp
      · exact le_of_lt (h1 p hp)
      · rcases List.mem_cons.mp hp with rfl | hp
        · exact le_refl _
        · exact h2 p hp
    · intro p hp heq hne2
      have hpw : (candPairs used bph afph K).Pairwise lexLt :=
        candPairs_pairwise_lex used bph afph K
      rw [hP] at hp hpw
      rcases List.pairwise_append.mp hpw with ⟨_, hpw2, _⟩
      rcases List.mem_append.mp hp with hp | hp
      · exfalso
        have := h1 p hp
        rw [heq] at this
        exact lt_irrefl _ this
      · rcases List.mem_cons.mp hp with rfl | hp
        · exact absurd rfl hne2
        · exact (List.pairwise_cons.mp hpw2).1 p hp

/-- Witness for C3 at a concrete input: two unused after-images at equal
distance and equal score zero; the fold selects index 0, the smaller. -/
theorem c3_witness :
    (candPairs [] 0 [0, 0] 5 ≠ [] ∧
      ∀ p ∈ candPairs [] 0 [0, 0] 5, 0 ≤ (fun _ => (0 : ℚ)) p.1) ∧
    (∃ q, q ∈ candPairs [] 0 [0, 0] 5 ∧
      bestFold (fun _ => (0 : ℚ)) (candIdxs [] 0 [0, 0] 5) (none, -1) =
        (some q.1, (fun _ => (0 : ℚ)) q.1) ∧
      (∀ p ∈ candPairs [] 0 [0, 0] 5,
        (fun _ => (0 : ℚ)) p.1 ≤ (fun _ => (0 : ℚ)) q.1) ∧
      (∀ p ∈ candPairs [] 0 [0, 0] 5,
        (fun _ => (0 : ℚ)) p.1 = (fun _ => (0 : ℚ)) q.1 → p.1 ≠ q.1 →
        q.2 < p.2 ∨ (q.2 = p.2 ∧ q.1 < p.1))) :=
  ⟨⟨by decide, by decide⟩,
    c3_best_candidate_selection [] 0 [0, 0] 5 (fun _ => (0 : ℚ))
      (by decide) (by decide)⟩

/-- C4: the candidate list contains only unused in-range after-indices,
has length min K (number unused) and so never more than K entries, every
chosen pair is lexicographically (distance, index) smaller than every
unchosen unused pair, and when at most K unused after-images remain the
candidate list contains exactly the unused in-range indices. -/
theorem c4_candidate_generator (used : List Nat) (bph : Nat) (afph : List Nat)
    (K : Nat) (hK : 1 ≤ K) :
    (∀ j ∈ candIdxs used bph afph K, j ∉ used ∧ j < afph.length) ∧
    (candIdxs used bph afph K).length = min K (dlist used bph afph).length ∧
    (candIdxs used bph afph K).length ≤ K ∧
    (∀ p ∈ candPairs used bph afph K, ∀ q ∈ dlist used bph afph,
      q ∉ candPairs used bph afph K → (p.2 < q.2 ∨ (p.2 = q.2 ∧ p.1 < q.1))) ∧
    ((dlist used bph afph).length ≤ K →
      ∀ j, j ∈ candIdxs used bph afph K ↔ (j < afph.length ∧ j ∉ used)) := by
  have hmax : max 1 K = K := max_eq_right hK
  have hlen : (candIdxs used bph afph K).length =
      min K (dlist used bph afph).length := by
    unfold candIdxs candPairs
    rw [List.length_map, List.length_take, List.length_insertionSort, hmax]
  refine ⟨?_, hlen, ?_, ?_, ?_⟩
  · intro j hj
    rcases List.mem_map.mp hj with ⟨p, hp, hpj⟩
    rcases mem_candPairs_unused hp with ⟨hu, hl⟩
    rw [← hpj]
    exact ⟨hu, hl⟩
  · rw [hlen]
    exact min_le_left _ _
  · have hpw := insertionSort_lex (dlist used bph afph) (dlist_pairwise_fst used bph afph)
    have hsplit : (List.insertionSort distLE (dlist used bph afph)).take (max 1 K) ++
        (List.insertionSort distLE (dlist used bph afph)).drop (max 1 K) =
        List.insertionSort distLE (dlist used bph afph) := List.take_append_drop _ _
    have hpw2 : ((List.insertionSort distLE (dlist used bph afph)).take (max 1 K) ++
        (List.insertionSort distLE (dlist used bph afph)).drop (max 1 K)).Pairwise
        lexLt := by
      rw [hsplit]
      exact hpw
    rcases List.pairwise_append.mp hpw2 with ⟨_, _, hcross⟩
    intro p hp q hq hqnot
    have hqS : q ∈ List.insertionSort distLE (dlist used bph afph) :=
      (List.mem_insertionSort distLE).mpr hq
    have hqS2 : q ∈ (List.insertionSort distLE (dlist used bph afph)).take (max 1 K) ++
        (List.insertionSort distLE (dlist used bph afph)).drop (max 1 K) := by
      rw [hsplit]
      exact hqS
    rcases List.mem_append.mp hqS2 with hq1 | hq2
    · exact absurd hq1 hqnot
    · exact hcross p hp q hq2
  · intro hsmall j
    have htake : (List.insertionSort distLE (dlist used bph afph)).take (max 1 K) =
        List.insertionSort distLE (dlist used bph afph) := by
      refine List.take_of_length_le ?_
      rw [List.length_insertionSort]
      exact le_trans hsmall (hmax ▸ le_max_right 1 K)
    constructor
    · intro hj
      rcases List.mem_map.mp hj with ⟨p, hp, hpj⟩
      rcases mem_candPairs_unused hp with ⟨hu, hl⟩
      rw [← hpj]
      exact ⟨hl, hu⟩
    · rintro ⟨hl, hu⟩
      refine List.mem_map.mpr ⟨(j, hamming bph (afph.get ⟨j, hl⟩)), ?_, rfl⟩
      show _ ∈ candPairs used bph afph K
      unfold candPairs
      rw [htake, List.mem_insertionSort]
      exact mem_dlist.mpr ⟨hl, hu, rfl⟩

/-- Witness for C4 at a concrete input: K = 5, two unused after-images. -/
theorem c4_witness :
    1 ≤ 5 ∧
    ((∀ j ∈ candIdxs [] 0 [0, 0] 5, j ∉ ([] : List Nat) ∧ j < ([0, 0] : List Nat).length) ∧
    (candIdxs [] 0 [0, 0] 5).length = min 5 (dlist [] 0 [0, 0]).length ∧
    (candIdxs [] 0 [0, 0] 5).length ≤ 5 ∧
    (∀ p ∈ candPairs [] 0 [0, 0] 5, ∀ q ∈ dlist [] 0 [0, 0],
      q ∉ candPairs [] 0 [0, 0] 5 → (p.2 < q.2 ∨ (p.2 = q.2 ∧ p.1 < q.1))) ∧
    ((dlist [] 0 [0, 0]).length ≤ 5 →
      ∀ j, j ∈ candIdxs [] 0 [0, 0] 5 ↔ (j < ([0, 0] : List Nat).length ∧ j ∉ ([] : List Nat)))) :=
  ⟨by decide, c4_candidate_generator [] 0 [0, 0] 5 (by decide)⟩

/-- C5: every pair emitted as a confident match carries a score at or above
the threshold, and every fallback pair carries exactly the sentinel score
-1 with matched=false. -/
theorem c5_threshold_and_sentinel (n : Nat) (afph : List Nat) (bph : Nat → Nat)
    (sc : Nat → Nat → ℚ) (K : Nat) (threshold : ℚ) :
    ∀ p ∈ (matchLoop n afph bph sc K threshold).pairs,
      (p.matched = true → threshold ≤ p.score) ∧
      (p.matched = false → p.score = -1) :=
  matchLoop_score_flag n afph bph sc K threshold

/-- Witness for C5 at the example run. -/
theorem c5_witness :
    (⟨0, 2, mkRat 9 10, true⟩ : MatchPair) ∈
      (matchLoop 3 exAfph exBph exScore 5 (mkRat 7 10)).pairs ∧
    (((⟨0, 2, mkRat 9 10, true⟩ : MatchPair).matched = true →
        mkRat 7 10 ≤ (⟨0, 2, mkRat 9 10, true⟩ : MatchPair).score) ∧
      ((⟨0, 2, mkRat 9 10, true⟩ : MatchPair).matched = false →
        (⟨0, 2, mkRat 9 10, true⟩ : MatchPair).score = -1)) :=
  ⟨by decide,
    c5_threshold_and_sentinel 3 exAfph exBph exScore 5 (mkRat 7 10)
      ⟨0, 2, mkRat 9 10, true⟩ (by decide)⟩

/-- C10: the similarity score is never negative, and with threshold 0 a
before-image processed while some after-image is still unused always
receives a confident match (matched=true), even when the best score is 0. -/
theorem c10_zero_threshold_always_confident :
    (∀ (desA desB : Option Nat) (knn : List (List ℚ)) (err : Bool),
      0 ≤ score_pair desA desB knn err) ∧
    (∀ (afph : List Nat) (bph : Nat → Nat) (sc : Nat → Nat → ℚ) (K : Nat)
      (st : MatchState) (i : Nat),
      (∀ j, 0 ≤ sc i j) → (∃ j, j < afph.length ∧ j ∉ st.used) →
      ∃ j s, j < afph.length ∧ j ∉ st.used ∧ 0 ≤ s ∧
        matchStep afph bph sc K 0 st i =
          { used := j :: st.used
            pairs := st.pairs ++ [⟨i, j, s, true⟩]
            matchedCount := st.matchedCount + 1
            unmatchedCount := st.unmatchedCount
            doneCount := i + 1 }) := by
  constructor
  · intro a b k e
    exact (score_pair_bounds a b k e).1
  · intro afph bph sc K st i hnn hex
    have hne : candPairs st.used (bph i) afph K ≠ [] := candPairs_ne_nil hex
    rcases bestFold_spec_map (sc i) (candPairs st.used (bph i) afph K) (none, -1) with
      ⟨_, hall⟩ | ⟨q, P1, P2, hP, hres, _, _, _⟩
    · exfalso
      rcases List.exists_mem_of_ne_nil _ hne with ⟨p0, hp0⟩
      have h1 : sc i p0.1 ≤ -1 := hall p0 hp0
      have h2 := hnn p0.1
      linarith
    · have hq : q ∈ candPairs st.used (bph i) afph K := by
        rw [hP]
        exact List.mem_append_right _ (List.mem_cons_self _ _)
      rcases mem_candPairs_unused hq with ⟨hu, hlen⟩
      refine ⟨q.1, sc i q.1, hlen, hu, hnn q.1, ?_⟩
      rw [matchStep_some afph bph sc K 0 st i q.1 (sc i q.1) hres, if_pos (hnn q.1)]

/-- Witness for C10 at a concrete input: one unused after-image, all
scores 0, threshold 0: the step emits a confident match. -/
theorem c10_witness :
    (∀ j : Nat, (0 : ℚ) ≤ ((fun _ _ => (0 : ℚ)) : Nat → Nat → ℚ) 0 j) ∧
    (∃ j, j < ([0] : List Nat).length ∧ j ∉ initState.used) ∧
    (∃ j s, j < ([0] : List Nat).length ∧ j ∉ initState.used ∧ 0 ≤ s ∧
      matchStep [0] (fun _ => 0) (fun _ _ => (0 : ℚ)) 5 0 initState 0 =
        { used := j :: initState.used
          pairs := initState.pairs ++ [⟨0, j, s, true⟩]
          matchedCount := initState.matchedCount + 1
          unmatchedCount := initState.unmatchedCount
          doneCount := 0 + 1 }) :=
  ⟨fun _ => le_refl 0, ⟨0, by decide, by decide⟩,
    c10_zero_threshold_always_confident.2 [0] (fun _ => 0) (fun _ _ => (0 : ℚ)) 5
      initState 0 (fun _ => le_refl 0) ⟨0, by decide, by decide⟩⟩

/-- C6 counterexample: a submission with an empty before-collection passes
the pre-worker validation of the start handler (which inspects only the
month and site fields, never the image collections), and the failure
instead happens inside the worker with the generic message of
build_report, not with a specific empty-input error kind. -/
theorem c6_counterexample :
    start_validate "2024-01" "SiteA" (mkRat 7 10) = Except.ok (mkRat 7 10) ∧
    run_job 0 [] (fun _ => 0) (fun _ _ => (0 : ℚ)) 5 (mkRat 7 10) =
      { state := "error", total := 0, done := 0, matched := 0, unmatched := 0
        before := 0, after := 0, pages := 0
        error := some "No images in before/ or after/" } ∧
    "No images in before/ or after/" ≠ "empty-input" := by
  refine ⟨?_, ?_, ?_⟩ <;> decide

/-- C6 amended: an empty before-collection or after-collection is not
rejected at validation time; the worker itself fails while running
build_report, and the job ends in state error carrying the generic message
No images in before/ or after/. The pre-worker validation accepts any
submission whose stripped month and site fields are non-empty. -/
theorem c6_empty_input_fails_in_worker (n : Nat) (afph : List Nat) (bph : Nat → Nat)
    (sc : Nat → Nat → ℚ) (K : Nat) (threshold : ℚ) (h : n = 0 ∨ afph = []) :
    run_job n afph bph sc K threshold =
      { state := "error", total := n, done := 0, matched := 0, unmatched := 0
        before := n, after := afph.length, pages := 0
        error := some "No images in before/ or after/" } ∧
    (∀ (month site : String) (t : ℚ), pstrip month ≠ "" → pstrip site ≠ "" →
      start_validate month site t = Except.ok t) := by
  constructor
  · have hcond : n = 0 ∨ afph.length = 0 := by
      rcases h with h | h
      · exact Or.inl h
      · right
        rw [h]
        rfl
    unfold run_job build_report
    rw [if_pos hcond]
  · intro m s t hm hs
    unfold start_validate
    rw [if_neg ?_]
    intro hor
    rcases hor with h2 | h2
    · exact hm h2
    · exact hs h2

/-- Witness for the amended C6 at a concrete input. -/
theorem c6_witness :
    ((0 = 0 ∨ ([] : List Nat) = []) ∧
      run_job 0 [] (fun _ => 0) (fun _ _ => (0 : ℚ)) 5 0 =
        { state := "error", total := 0, done := 0, matched := 0, unmatched := 0
          before := 0, after := ([] : List Nat).length, pages := 0
          error := some "No images in before/ or after/" } ∧
      (∀ (month site : String) (t : ℚ), pstrip month ≠ "" → pstrip site ≠ "" →
        start_validate month site t = Except.ok t)) :=
  ⟨Or.inl rfl,
    (c6_empty_input_fails_in_worker 0 [] (fun _ => 0) (fun _ _ => (0 : ℚ)) 5 0
      (Or.inl rfl)).1,
    (c6_empty_input_fails_in_worker 0 [] (fun _ => 0) (fun _ _ => (0 : ℚ)) 5 0
      (Or.inl rfl)).2⟩

/-- C7 counterexample: thresholds 1.1 and -0.1, which the spec says must be
rejected with an invalid-threshold error, are accepted by the start
handler and forwarded to the worker unchanged. -/
theorem c7_counterexample :
    start_validate "2024-01" "SiteA" (mkRat 11 10) = Except.ok (mkRat 11 10) ∧
    start_validate "2024-01" "SiteA" (mkRat (-1) 10) = Except.ok (mkRat (-1) 10) := by
  constructor <;> decide

/-- C7 amended: the start handler performs no validation of the threshold:
any rational threshold is accepted whenever the stripped month and site
fields are non-empty, and with a threshold above 1 (scores never exceed 1)
every emitted pair is a fallback pair, never a confident match. -/
theorem c7_threshold_unvalidated (month site : String) (t : ℚ)
    (hm : pstrip month ≠ "") (hs : pstrip site ≠ "") :
    start_validate month site t = Except.ok t ∧
    (∀ (n : Nat) (afph : List Nat) (bph : Nat → Nat) (sc : Nat → Nat → ℚ) (K : Nat),
      1 < t → (∀ i j, sc i j ≤ 1) →
      ∀ p ∈ (matchLoop n afph bph sc K t).pairs, p.matched = false) := by
  constructor
  · unfold start_validate
    rw [if_neg ?_]
    intro hor
    rcases hor with h2 | h2
    · exact hm h2
    · exact hs h2
  · intro n afph bph sc K ht hsc
    exact matchLoop_all_fallback n afph bph sc K t ht hsc

/-- Witness for the amended C7 at a concrete input. -/
theorem c7_witness :
    (pstrip "2024-01" ≠ "" ∧ pstrip "SiteA" ≠ "") ∧
    (start_validate "2024-01" "SiteA" (mkRat 11 10) = Except.ok (mkRat 11 10) ∧
      (∀ (n : Nat) (afph : List Nat) (bph : Nat → Nat) (sc : Nat → Nat → ℚ) (K : Nat),
        1 < mkRat 11 10 → (∀ i j, sc i j ≤ 1) →
        ∀ p ∈ (matchLoop n afph bph sc K (mkRat 11 10)).pairs, p.matched = false)) :=
  ⟨⟨by decide, by decide⟩,
    c7_threshold_unvalidated "2024-01" "SiteA" (mkRat 11 10) (by decide) (by decide)⟩

/-- C8 counterexample: on the example run one before-image is skipped
(unpaired count 1), yet no numeric field of the final progress record
equals that count: the unmatched counter counts fallback pairs, not
skipped before-images, so the unpaired total is never reported directly. -/
theorem c8_counterexample :
    build_report 3 exAfph exBph exScore 5 (mkRat 7 10) = Except.ok (exPairs, exProg) ∧
    unpairedCount 3 exPairs = 1 ∧
    exProg.total ≠ 1 ∧ exProg.done ≠ 1 ∧ exProg.matched ≠ 1 ∧ exProg.unmatched ≠ 1 ∧
    exProg.before ≠ 1 ∧ exProg.after ≠ 1 ∧ exProg.pages ≠ 1 := by
  refine ⟨?_, ?_, ?_, ?_, ?_, ?_, ?_, ?_, ?_⟩ <;> decide

/-- C8 amended: skipped before-images emit no pair and increment no
counter; the record reports matched, unmatched and total, and the number
of unpaired before-images is only derivable from them as
total - matched - unmatched, which always equals the true unpaired count. -/
theorem c8_unpaired_only_derivable (n : Nat) (afph : List Nat) (bph : Nat → Nat)
    (sc : Nat → Nat → ℚ) (K : Nat) (threshold : ℚ)
    (hn : n ≠ 0) (ha : afph.length ≠ 0) :
    ∃ pairs prog, build_report n afph bph sc K threshold = Except.ok (pairs, prog) ∧
      prog.matched + prog.unmatched = pairs.length ∧
      pairs.length ≤ n ∧
      unpairedCount n pairs = n - pairs.length ∧
      prog.total = n ∧
      prog.matched + prog.unmatched + unpairedCount n pairs = prog.total := by
  have hcond : ¬(n = 0 ∨ afph.length = 0) := by
    intro hor
    rcases hor with h | h
    · exact hn h
    · exact ha h
  rcases matchLoop_counts n afph bph sc K threshold with ⟨hc, _, _, hl, hu, _⟩
  refine ⟨(matchLoop n afph bph sc K threshold).pairs,
    { state := "done", total := n
      done := (matchLoop n afph bph sc K threshold).doneCount
      matched := (matchLoop n afph bph sc K threshold).matchedCount
      unmatched := (matchLoop n afph bph sc K threshold).unmatchedCount
      before := n, after := afph.length
      pages := pagesCount (matchLoop n afph bph sc K threshold).pairs.length
      error := none }, ?_, ?_, hl, hu, rfl, ?_⟩
  · unfold build_report
    rw [if_neg hcond]
  · dsimp only
    exact hc
  · dsimp only
    omega

/-- Witness for the amended C8 at the example run. -/
theorem c8_witness :
    (3 ≠ 0 ∧ exAfph.length ≠ 0) ∧
    (∃ pairs prog,
      build_report 3 exAfph exBph exScore 5 (mkRat 7 10) = Except.ok (pairs, prog) ∧
      prog.matched + prog.unmatched = pairs.length ∧
      pairs.length ≤ 3 ∧
      unpairedCount 3 pairs = 3 - pairs.length ∧
      prog.total = 3 ∧
      prog.matched + prog.unmatched + unpairedCount 3 pairs = prog.total) :=
  ⟨⟨by decide, by decide⟩,
    c8_unpaired_only_derivable 3 exAfph exBph exScore 5 (mkRat 7 10)
      (by decide) (by decide)⟩

/-- C9 counterexample: with two observers A and B subscribed from the
start, the schedule push 1, A reads, push 2, B reads leaves observer B
without its own copy of event 1, because the per-job channel is a single
shared queue whose get consumes the event. -/
theorem c9_counterexample :
    chanRun [ChanOp.push 1, ChanOp.getA, ChanOp.push 2, ChanOp.getB] =
      { queue := [], recA := [1], recB := [2], pushed := [1, 2] } ∧
    (1 : Nat) ∈ (chanRun [ChanOp.push 1, ChanOp.getA, ChanOp.push 2, ChanOp.getB]).pushed ∧
    (1 : Nat) ∉ (chanRun [ChanOp.push 1, ChanOp.getA, ChanOp.push 2, ChanOp.getB]).recB := by
  refine ⟨?_, ?_, ?_⟩ <;> decide

/-- C9 amended: the per-job event channel is one shared FIFO queue read
destructively: over any schedule, every pushed event is delivered to at
most one of the two observers (the received lists and the pending queue
together are a permutation of the pushed sequence), and a single observer
reading alone receives every event in emission order with none dropped. -/
theorem c9_consume_once_channel :
    (∀ ops : List ChanOp,
      List.Perm ((chanRun ops).recA ++ (chanRun ops).recB ++ (chanRun ops).queue)
        (chanRun ops).pushed) ∧
    (∀ ops : List ChanOp, (∀ op ∈ ops, op ≠ ChanOp.getB) →
      (chanRun ops).recA ++ (chanRun ops).queue = (chanRun ops).pushed) := by
  constructor
  · intro ops
    exact chanFold_perm ops ⟨[], [], [], []⟩ (List.Perm.refl _)
  · intro ops h
    exact chanFold_single ops ⟨[], [], [], []⟩ h rfl

/-- Witness for the amended C9 at a concrete schedule. -/
theorem c9_witness :
    (∀ op ∈ [ChanOp.push 5, ChanOp.getA], op ≠ ChanOp.getB) ∧
    (chanRun [ChanOp.push 5, ChanOp.getA]).recA ++
        (chanRun [ChanOp.push 5, ChanOp.getA]).queue =
      (chanRun [ChanOp.push 5, ChanOp.getA]).pushed :=
  ⟨by decide,
    c9_consume_once_channel.2 [ChanOp.push 5, ChanOp.getA] (by decide)⟩

end TGReport
